import Mathlib

/-!
Verification of the EXIF hierarchical-tag reconciliation core of the Allusion
repository (src/backend/ExifIO.ts):

* `convertMetadataToHierarchy` (the spec's `normalize`, ExifIO.ts lines 96-119)
* `writeTagsPayload` (the field-shaping part of the spec's `serialize`,
  `ExifIO.writeTags`, ExifIO.ts lines 164-196)

JavaScript strings are modelled as `List Char` so that the semantics of
`String.prototype.split` (including its empty-separator behaviour) can be
embedded exactly.
-/

namespace Allusion

/-- A JavaScript string, modelled as its list of characters. -/
abbrev JStr := List Char

/-- Shorthand turning a Lean string literal into the `List Char` model. -/
def jstr (s : String) : JStr := s.data

/-- A scalar metadata value as delivered by the exiftool reader: a string or a
number (exiftool parses numeric-looking values to numbers, see the comment on
ExifIO.ts line 104). -/
inductive EScalar where
  | s (v : JStr)
  | n (v : Int)
deriving DecidableEq

/-- JavaScript `toString()` on a scalar. -/
def EScalar.toStr : EScalar → JStr
  | .s v => v
  | .n v => (toString v).data

/-- A raw EXIF field value: absent (`undefined`/`null`), a single scalar, or an
array of scalars — the three shapes `parseExifFieldAsString` distinguishes. -/
inductive ExifVal where
  | absent
  | scalar (x : EScalar)
  | arr (xs : List EScalar)
deriving DecidableEq

/-- The metadata entry read for a file: the three fields consumed by
`convertMetadataToHierarchy` (ExifIO.ts lines 100-102). -/
structure IMetadata where
  HierarchicalSubject : ExifVal
  Subject : ExifVal
  Keywords : ExifVal
deriving DecidableEq

/-- `parseExifFieldAsString` (ExifIO.ts lines 97-98):
`Array.isArray(val) ? val : val?.toString() ? [val.toString()] : []`.
The array branch returns the array unchanged in the source; its elements are
stringified at every use site (lines 105 and 107), so the stringification is
folded into this definition. A scalar is kept only when its `toString()` is
truthy, i.e. a non-empty string; `absent` (`val?.toString()` is `undefined`)
yields the empty list. -/
def parseExifFieldAsString : ExifVal → List JStr
  | .arr xs => xs.map EScalar.toStr
  | .scalar x => if x.toStr = [] then [] else [x.toStr]
  | .absent => []

/-- Does `sep` occur at the very front of `s`? (the matching step of
JavaScript `String.prototype.split`). -/
def headMatches : JStr → JStr → Bool
  | [], _ => true
  | _ :: _, [] => false
  | a :: as, b :: bs => a == b && headMatches as bs

/-- One scan of JavaScript `String.prototype.split(sep)` for non-empty `sep`:
walk left to right; at the first position where `sep` matches, emit the
accumulated field and continue after the match. `fuel` bounds the recursion;
`fuel = s.length` always suffices because every step consumes at least one
character of `s` (the `0`-with-nonempty-string branch is then unreachable). -/
def jsplitAux (sep : JStr) : Nat → JStr → JStr → List JStr
  | _, [], acc => [acc.reverse]
  | 0, s, acc => [acc.reverse ++ s]
  | fuel + 1, c :: rest, acc =>
    if headMatches sep (c :: rest) then
      acc.reverse :: jsplitAux sep fuel (rest.drop (sep.length - 1)) []
    else
      jsplitAux sep fuel rest (c :: acc)

/-- JavaScript `s.split(sep)`: an empty separator splits the string into its
individual characters (so the empty string gives `[]`); a non-empty separator
splits at each leftmost non-overlapping occurrence (so the empty string gives
`[""]`). -/
def jsplit (sep s : JStr) : List JStr :=
  if sep = [] then s.map (fun c => [c]) else jsplitAux sep s.length s []

/-- JavaScript `Array.prototype.join(sep)` on an array of strings. -/
def jjoin (sep : JStr) : List JStr → JStr
  | [] => []
  | [x] => x
  | x :: y :: xs => x ++ sep ++ jjoin sep (y :: xs)

/-- `Array.from(new Set(l))`: deduplication keeping the first occurrence of
each element, in insertion order. -/
def jsSetDedup : List JStr → List JStr
  | [] => []
  | x :: xs => x :: (jsSetDedup xs).filter (fun y => decide (y ≠ x))

/-- `splitHierarchy` (ExifIO.ts line 105): every coerced `HierarchicalSubject`
string split on the separator, in input order. -/
def splitPaths (entry : IMetadata) (separator : JStr) : List (List JStr) :=
  (parseExifFieldAsString entry.HierarchicalSubject).map (fun h => jsplit separator h)

/-- `allPlainTags` (ExifIO.ts lines 106-108): the `Set`-deduplicated union of
the coerced `Subject` and `Keywords` sequences, `Subject` first. -/
def allPlainTags (entry : IMetadata) : List JStr :=
  jsSetDedup (parseExifFieldAsString entry.Subject ++ parseExifFieldAsString entry.Keywords)

/-- `ExifIO.convertMetadataToHierarchy` (ExifIO.ts lines 96-119): the split
hierarchical paths, followed by the plain tags that match no hierarchical
leaf (`h[h.length - 1] !== tag`, rendered as `h.getLast? != some tag` since
indexing past the end yields `undefined`), each as a singleton path. -/
def convertMetadataToHierarchy (entry : IMetadata) (separator : JStr) :
    List (List JStr) :=
  let sh := splitPaths entry separator
  let filteredTags :=
    (allPlainTags entry).filter (fun tag => sh.all (fun h => h.getLast? != some tag))
  sh ++ filteredTags.map (fun t => [t])

/-- The field values handed to `ep.writeMetadata` (ExifIO.ts lines 181-192).
`subject` entries are `Option JStr` because `entry[entry.length - 1]` is
`undefined` on an empty array. -/
structure WritePayload where
  hierarchicalSubject : List JStr
  subject : List (Option JStr)
  keywords : List (Option JStr)
deriving DecidableEq

/-- `ExifIO.writeTags` (ExifIO.ts lines 164-196), restricted to its pure
field-shaping part: `none` models the early `return` on an empty
`tagNameHierarchy` (line 175, no write issued); otherwise the payload written:
each hierarchy joined with the separator, and `Subject`/`Keywords` both set to
the leaf (`entry[entry.length - 1]`) of each hierarchy. -/
def writeTagsPayload (tagNameHierarchy : List (List JStr)) (separator : JStr) :
    Option WritePayload :=
  if tagNameHierarchy = [] then none
  else
    let subject := tagNameHierarchy.map (fun entry => entry.getLast?)
    some
      { hierarchicalSubject :=
          tagNameHierarchy.map (fun hierarchy => jjoin separator hierarchy)
        subject := subject
        keywords := subject }

/-- Re-read a written payload as a metadata entry: each field arrives as an
array of strings. Leaf values are present (`some`) for every well-formed
(non-empty) path; an `undefined` leaf of an empty path has no string form and
is dropped. -/
def payloadEntry (pl : WritePayload) : IMetadata :=
  { HierarchicalSubject := .arr (pl.hierarchicalSubject.map EScalar.s)
    Subject := .arr (pl.subject.filterMap (fun o => o.map EScalar.s))
    Keywords := .arr (pl.keywords.filterMap (fun o => o.map EScalar.s)) }

/-- Serialize a path list and feed the resulting fields back through
normalization with the same separator (the round-trip of §4.2's guarantee).
An empty path list writes nothing, so re-reading yields no tags. -/
def reparse (paths : List (List JStr)) (separator : JStr) : List (List JStr) :=
  match writeTagsPayload paths separator with
  | none => []
  | some pl => convertMetadataToHierarchy (payloadEntry pl) separator

/-- Does `sep` occur anywhere in `s` (as a contiguous substring)? -/
def occursIn (sep : JStr) : JStr → Bool
  | [] => headMatches sep []
  | c :: rest => headMatches sep (c :: rest) || occursIn sep rest

/-! ### Helper lemmas about the JavaScript primitives -/

theorem mem_jsSetDedup {t : JStr} : ∀ {l : List JStr}, t ∈ jsSetDedup l ↔ t ∈ l := by
  intro l
  induction l with
  | nil => simp [jsSetDedup]
  | cons x xs ih =>
    simp only [jsSetDedup, List.mem_cons, List.mem_filter, ih, decide_eq_true_eq]
    constructor
    · rintro (rfl | ⟨h, _⟩)
      · exact Or.inl rfl
      · exact Or.inr h
    · rintro (rfl | h)
      · exact Or.inl rfl
      · by_cases hx : t = x
        · exact Or.inl hx
        · exact Or.inr ⟨h, hx⟩

/-- JavaScript `Set` union of two lists: the deduplicated first list, followed
by the deduplicated elements of the second list that are not in the first. -/
theorem jsSetDedup_append (S K : List JStr) :
    jsSetDedup (S ++ K)
      = jsSetDedup S ++ (jsSetDedup K).filter (fun y => decide (y ∉ S)) := by
  induction S with
  | nil =>
    simp only [List.nil_append, jsSetDedup]
    rw [List.filter_eq_self.mpr]
    intro a _
    simp
  | cons a S ih =>
    rw [List.cons_append]
    show a :: (jsSetDedup (S ++ K)).filter (fun y => decide (y ≠ a))
        = a :: ((jsSetDedup S).filter (fun y => decide (y ≠ a))
            ++ (jsSetDedup K).filter (fun y => decide (y ∉ a :: S)))
    rw [ih, List.filter_append, List.filter_filter]
    congr 2
    refine List.filter_congr (fun y _ => ?_)
    simp [List.mem_cons, not_or]

theorem headMatches_nil_left (s : JStr) : headMatches [] s = true := by
  cases s <;> rfl

theorem headMatches_single (c a : Char) (s : JStr) :
    headMatches [c] (a :: s) = (c == a) := by
  simp [headMatches, headMatches_nil_left]

theorem jsplitAux_ne_nil (sep : JStr) (fuel : Nat) (s acc : JStr) :
    jsplitAux sep fuel s acc ≠ [] := by
  induction fuel generalizing s acc with
  | zero => cases s <;> simp [jsplitAux]
  | succ n ih =>
    cases s with
    | nil => simp [jsplitAux]
    | cons a rest =>
      simp only [jsplitAux]
      split
      · simp
      · exact ih _ _

theorem jsplit_ne_nil (sep s : JStr) (hsep : sep ≠ []) : jsplit sep s ≠ [] := by
  rw [jsplit, if_neg hsep]
  exact jsplitAux_ne_nil _ _ _ _

/-- A scan that never meets the (single-character) separator accumulates the
whole string into one field. -/
theorem jsplitAux_no_sep (c : Char) (s : JStr) (h : c ∉ s) :
    ∀ acc : JStr, jsplitAux [c] s.length s acc = [acc.reverse ++ s] := by
  induction s with
  | nil => intro acc; simp [jsplitAux]
  | cons a s ih =>
    intro acc
    have hca : (c == a) = false := by
      simp only [beq_eq_false_iff_ne, ne_eq]
      intro e
      exact h (e ▸ List.mem_cons_self a s)
    simp only [List.length_cons, jsplitAux, headMatches_single, hca, Bool.false_eq_true,
      if_false]
    rw [ih (fun hm => h (List.mem_cons_of_mem a hm)) (a :: acc)]
    simp

/-- A scan that first meets the (single-character) separator after `s` emits
`s` as a field and restarts after the separator. -/
theorem jsplitAux_break (c : Char) (s t : JStr) (h : c ∉ s) :
    ∀ acc : JStr,
      jsplitAux [c] (s ++ c :: t).length (s ++ c :: t) acc
        = (acc.reverse ++ s) :: jsplitAux [c] t.length t [] := by
  induction s with
  | nil =>
    intro acc
    rw [List.nil_append, List.length_cons]
    simp [jsplitAux, headMatches_single]
  | cons a s ih =>
    intro acc
    have hca : (c == a) = false := by
      simp only [beq_eq_false_iff_ne, ne_eq]
      intro e
      exact h (e ▸ List.mem_cons_self a s)
    rw [List.cons_append, List.length_cons]
    simp only [jsplitAux, headMatches_single, hca, Bool.false_eq_true, if_false]
    rw [ih (fun hm => h (List.mem_cons_of_mem a hm)) (a :: acc)]
    simp

/-- Splitting on a single-character separator undoes joining with it, provided
the separator character occurs in no segment. -/
theorem jsplit_jjoin_single (c : Char) :
    ∀ p : List JStr, p ≠ [] → (∀ seg ∈ p, c ∉ seg) →
      jsplit [c] (jjoin [c] p) = p := by
  intro p
  induction p with
  | nil => intro h; exact absurd rfl h
  | cons seg q ih =>
    intro _ hseg
    cases q with
    | nil =>
      rw [jjoin, jsplit, if_neg (by simp)]
      rw [jsplitAux_no_sep c seg (hseg seg (List.mem_cons_self _ _)) []]
      simp
    | cons seg2 q2 =>
      have hj : jjoin [c] (seg :: seg2 :: q2) = seg ++ c :: jjoin [c] (seg2 :: q2) := by
        rw [jjoin]
        simp
      rw [hj, jsplit, if_neg (by simp)]
      rw [jsplitAux_break c seg (jjoin [c] (seg2 :: q2))
        (hseg seg (List.mem_cons_self _ _))]
      have hrest : jsplitAux [c] (jjoin [c] (seg2 :: q2)).length (jjoin [c] (seg2 :: q2)) []
          = seg2 :: q2 := by
        have := ih (by simp) (fun s hs => hseg s (List.mem_cons_of_mem _ hs))
        rwa [jsplit, if_neg (by simp)] at this
      rw [hrest]
      simp

/-- Joining with the empty separator concatenates the segments. -/
theorem jjoin_nil : ∀ p : List JStr, jjoin [] p = p.flatten
  | [] => rfl
  | [x] => by simp [jjoin]
  | x :: y :: xs => by
    rw [jjoin, jjoin_nil (y :: xs)]
    simp

/-- A list of non-empty paths has a list of leaves: its `getLast?` values are
all `some`, and each leaf is the last element of one of the paths. -/
theorem exists_leaves (paths : List (List JStr)) (h1 : ∀ p ∈ paths, p ≠ []) :
    ∃ ls : List JStr, paths.map List.getLast? = ls.map some
      ∧ ∀ x ∈ ls, ∃ p ∈ paths, p.getLast? = some x := by
  induction paths with
  | nil => exact ⟨[], rfl, by simp⟩
  | cons p ps ih =>
    obtain ⟨ls, hmap, hmem⟩ := ih (fun q hq => h1 q (List.mem_cons_of_mem _ hq))
    cases hgl : p.getLast? with
    | none =>
      exact absurd (List.getLast?_eq_none_iff.mp hgl) (h1 p (List.mem_cons_self _ _))
    | some x =>
      refine ⟨x :: ls, ?_, ?_⟩
      · simp [hgl, hmap]
      · rintro y hy
        rcases List.mem_cons.mp hy with rfl | hy'
        · exact ⟨p, List.mem_cons_self _ _, hgl⟩
        · obtain ⟨q, hq, hq2⟩ := hmem y hy'
          exact ⟨q, List.mem_cons_of_mem _ hq, hq2⟩

/-! ### The claims -/

/-- Claim C1: for every input, normalization discards from the flat-name union
exactly those names equal to the last segment of some split `HierarchicalSubject`
path; in particular `hierarchicalSubject = ["Body|Arm|Hand"]`,
`subject = ["Hand", "Foot"]`, `keywords = []`, separator `"|"` yields
`[["Body","Arm","Hand"], ["Foot"]]`. -/
theorem C1_leaf_collision_filtering :
    (∀ (entry : IMetadata) (sep : JStr),
        convertMetadataToHierarchy entry sep
          = splitPaths entry sep
            ++ ((allPlainTags entry).filter
                  (fun tag => decide (¬ ∃ h ∈ splitPaths entry sep, h.getLast? = some tag))).map
                (fun tag => [tag]))
    ∧ convertMetadataToHierarchy
        ⟨.arr [.s (jstr "Body|Arm|Hand")], .arr [.s (jstr "Hand"), .s (jstr "Foot")], .arr []⟩
        (jstr "|")
        = [[jstr "Body", jstr "Arm", jstr "Hand"], [jstr "Foot"]] := by
  constructor
  · intro entry sep
    show splitPaths entry sep
        ++ ((allPlainTags entry).filter
              (fun tag => (splitPaths entry sep).all (fun h => h.getLast? != some tag))).map
            (fun t => [t]) = _
    have hfil : (allPlainTags entry).filter
          (fun tag => (splitPaths entry sep).all (fun h => h.getLast? != some tag))
        = (allPlainTags entry).filter
          (fun tag => decide (¬ ∃ h ∈ splitPaths entry sep, h.getLast? = some tag)) := by
      refine List.filter_congr (fun tag _ => ?_)
      rw [Bool.eq_iff_iff]
      simp [List.all_eq_true, bne_iff_ne]
    rw [hfil]
  · decide

/-- Claim C2: the flat tag names are the case-sensitive first-occurrence
deduplicated union of the coerced `Subject` and `Keywords` sequences, all
`Subject` entries first in order, then the `Keywords` entries not already
present; e.g. `subject = ["Red","Blue"]`, `keywords = ["Blue","Green"]`,
`hierarchicalSubject = []` yields `[["Red"],["Blue"],["Green"]]`. -/
theorem C2_flat_union_ordering :
    (∀ entry : IMetadata,
        allPlainTags entry
          = jsSetDedup (parseExifFieldAsString entry.Subject)
            ++ (jsSetDedup (parseExifFieldAsString entry.Keywords)).filter
                (fun k => decide (k ∉ parseExifFieldAsString entry.Subject)))
    ∧ convertMetadataToHierarchy
        ⟨.arr [], .arr [.s (jstr "Red"), .s (jstr "Blue")],
          .arr [.s (jstr "Blue"), .s (jstr "Green")]⟩ (jstr "|")
        = [[jstr "Red"], [jstr "Blue"], [jstr "Green"]] :=
  ⟨fun entry => jsSetDedup_append _ _, by decide⟩

/-- Claim C4, counterexample: with an empty separator neither function fails —
there is no separator validation anywhere in the code. Normalization returns an
ordinary result (the hierarchical string split into its individual characters,
JavaScript `split` with an empty separator) and serialization returns an
ordinary payload (segments concatenated with no delimiter), contradicting the
claimed `InvalidInput` failure. -/
theorem C4_counterexample :
    convertMetadataToHierarchy ⟨.scalar (.s (jstr "AB")), .absent, .absent⟩ []
        = [[jstr "A", jstr "B"]]
    ∧ writeTagsPayload [[jstr "A", jstr "B"]] []
        = some ⟨[jstr "AB"], [some (jstr "B")], [some (jstr "B")]⟩ := by decide

/-- Claim C4, amended: normalization and serialization do not validate the
separator. With an empty separator no error occurs: normalization splits each
coerced `HierarchicalSubject` string into its individual characters, and
serialization joins each path's segments with no delimiter in between. -/
theorem C4_empty_separator_behavior :
    (∀ entry : IMetadata,
        splitPaths entry []
          = (parseExifFieldAsString entry.HierarchicalSubject).map
              (fun h => h.map (fun ch => [ch])))
    ∧ ∀ paths : List (List JStr), paths ≠ [] →
        writeTagsPayload paths []
          = some ⟨paths.map List.flatten, paths.map List.getLast?,
                  paths.map List.getLast?⟩ := by
  constructor
  · intro entry
    simp [splitPaths, jsplit]
  · intro paths h
    simp [writeTagsPayload, h, jjoin_nil]

/-- Claim C4, witness for the amended theorem at a concrete input. -/
theorem C4_witness :
    writeTagsPayload [[jstr "A", jstr "B"]] []
      = some ⟨[jstr "AB"], [some (jstr "B")], [some (jstr "B")]⟩ := by
  have h := C4_empty_separator_behavior.2 [[jstr "A", jstr "B"]] (by decide)
  exact h.trans (by decide)

/-- Claim C5: for every non-empty path list and non-empty separator, the
serialized payload has `HierarchicalSubject` equal to the paths joined
segment-wise with the separator in path order, and `Subject` and `Keywords`
both equal to the sequence of each path's last segment in path order. -/
theorem C5_serializer_field_shapes (paths : List (List JStr)) (sep : JStr)
    (hpaths : paths ≠ []) (_hsep : sep ≠ []) :
    writeTagsPayload paths sep
      = some ⟨paths.map (fun p => jjoin sep p), paths.map List.getLast?,
              paths.map List.getLast?⟩ := by
  simp [writeTagsPayload, hpaths]

/-- Claim C5, witness: the claim's own example,
`serialize([["Body","Hand"],["Foot"]], "|")`. -/
theorem C5_witness :
    writeTagsPayload [[jstr "Body", jstr "Hand"], [jstr "Foot"]] (jstr "|")
      = some ⟨[jstr "Body|Hand", jstr "Foot"],
              [some (jstr "Hand"), some (jstr "Foot")],
              [some (jstr "Hand"), some (jstr "Foot")]⟩ := by
  have h := C5_serializer_field_shapes [[jstr "Body", jstr "Hand"], [jstr "Foot"]]
    (jstr "|") (by decide) (by decide)
  exact h.trans (by decide)

/-- Claim C6: serialization of an empty path list issues no write at all
(the early return on ExifIO.ts line 175), and a write payload is produced
exactly when the path list is non-empty. -/
theorem C6_empty_write_suppression :
    (∀ sep : JStr, writeTagsPayload [] sep = none)
    ∧ ∀ (paths : List (List JStr)) (sep : JStr), paths ≠ [] →
        (writeTagsPayload paths sep).isSome := by
  refine ⟨fun sep => rfl, fun paths sep h => ?_⟩
  simp [writeTagsPayload, h]

/-- Claim C6, witness at a concrete non-empty path list. -/
theorem C6_witness : (writeTagsPayload [[jstr "A"]] (jstr "|")).isSome :=
  C6_empty_write_suppression.2 [[jstr "A"]] (jstr "|") (by decide)

/-- Stringifying the string-scalar wrapping of a list of strings is the
identity. -/
theorem map_toStr_map_s (l : List JStr) : (l.map EScalar.s).map EScalar.toStr = l := by
  induction l with
  | nil => rfl
  | cons x xs ih => simp [ih, EScalar.toStr]

/-- Wrapping leaf options produced by non-empty paths keeps every value. -/
theorem filterMap_map_some (l : List JStr) :
    (l.map some).filterMap (fun o => o.map EScalar.s) = l.map EScalar.s := by
  induction l with
  | nil => rfl
  | cons x xs ih => simp [List.filterMap_cons, ih]

/-- Normalization only sees a field through its coercion, so two entries whose
`HierarchicalSubject` coerce identically normalize identically. -/
theorem convert_eq_of_parse_eq (a a' b k : ExifVal) (sep : JStr)
    (h : parseExifFieldAsString a = parseExifFieldAsString a') :
    convertMetadataToHierarchy ⟨a, b, k⟩ sep
      = convertMetadataToHierarchy ⟨a', b, k⟩ sep := by
  simp only [convertMetadataToHierarchy, splitPaths, allPlainTags]
  rw [h]

/-- Claim C7: the coercion turns a sequence into its stringified self, a
non-empty scalar (including the number `123`) into a one-element sequence, and
an absent or empty value into the empty sequence; a scalar
`hierarchicalSubject` behaves exactly like the one-element list around it. -/
theorem C7_coercion_rule :
    (∀ xs : List EScalar, parseExifFieldAsString (.arr xs) = xs.map EScalar.toStr)
    ∧ (∀ x : EScalar, x.toStr ≠ [] → parseExifFieldAsString (.scalar x) = [x.toStr])
    ∧ parseExifFieldAsString (.scalar (.n 123)) = [jstr "123"]
    ∧ parseExifFieldAsString .absent = []
    ∧ (∀ x : EScalar, x.toStr = [] → parseExifFieldAsString (.scalar x) = [])
    ∧ ∀ (v2 v3 : ExifVal) (sep : JStr),
        convertMetadataToHierarchy ⟨.scalar (.s (jstr "A|B")), v2, v3⟩ sep
          = convertMetadataToHierarchy ⟨.arr [.s (jstr "A|B")], v2, v3⟩ sep := by
  refine ⟨fun xs => rfl, fun x hx => by simp [parseExifFieldAsString, hx], by decide, rfl,
    fun x hx => by simp [parseExifFieldAsString, hx], fun v2 v3 sep => ?_⟩
  exact convert_eq_of_parse_eq _ _ v2 v3 sep (by decide)

/-- Claim C7, witness: a non-empty string scalar coerces to a one-element
sequence. -/
theorem C7_witness : parseExifFieldAsString (.scalar (.s (jstr "A"))) = [jstr "A"] :=
  C7_coercion_rule.2.1 (.s (jstr "A")) (by decide)

/-- An absent-or-empty raw field value in the sense of the spec: absent, the
empty string, or the empty sequence. -/
def isEmptyVal : ExifVal → Prop
  | .absent => True
  | .scalar x => x.toStr = []
  | .arr xs => xs = []

/-- Claim C8: when all three raw fields are absent or empty, normalization
returns the empty sequence of paths (for any non-empty separator). -/
theorem C8_empty_input_empty_output (v1 v2 v3 : ExifVal) (sep : JStr)
    (_hsep : sep ≠ []) (h1 : isEmptyVal v1) (h2 : isEmptyVal v2) (h3 : isEmptyVal v3) :
    convertMetadataToHierarchy ⟨v1, v2, v3⟩ sep = [] := by
  have p : ∀ v, isEmptyVal v → parseExifFieldAsString v = [] := by
    intro v hv
    cases v with
    | absent => rfl
    | scalar x =>
      have hx : x.toStr = [] := hv
      simp [parseExifFieldAsString, hx]
    | arr xs =>
      have hx : xs = [] := hv
      simp [parseExifFieldAsString, hx]
  simp [convertMetadataToHierarchy, splitPaths, allPlainTags, p v1 h1, p v2 h2, p v3 h3,
    jsSetDedup]

/-- Claim C8, witness: all three fields absent, separator `"|"`. -/
theorem C8_witness :
    convertMetadataToHierarchy ⟨.absent, .absent, .absent⟩ (jstr "|") = [] :=
  C8_empty_input_empty_output .absent .absent .absent (jstr "|") (by decide)
    trivial trivial trivial

/-- Claim C9, counterexample: the input `hierarchicalSubject = ["A|"]` with
separator `"|"` produces the path `["A", ""]`, whose second segment is the
empty string — the claimed "no segment is empty" invariant fails. -/
theorem C9_counterexample :
    (jstr "|") ≠ []
    ∧ ¬ ∀ p ∈ convertMetadataToHierarchy ⟨.arr [.s (jstr "A|")], .absent, .absent⟩
          (jstr "|"), ∀ seg ∈ p, seg ≠ [] := by decide

/-- Claim C9, amended: for every input and non-empty separator, every path in
the result is a non-empty sequence of segments; segments themselves may be
empty (when an input string is empty or has leading, trailing or doubled
separators). -/
theorem C9_result_paths_nonempty (entry : IMetadata) (sep : JStr) (hsep : sep ≠ []) :
    ∀ p ∈ convertMetadataToHierarchy entry sep, p ≠ [] := by
  intro p hp
  simp only [convertMetadataToHierarchy] at hp
  rcases List.mem_append.mp hp with h | h
  · simp only [splitPaths] at h
    obtain ⟨s, _hs, rfl⟩ := List.mem_map.mp h
    exact jsplit_ne_nil sep s hsep
  · obtain ⟨t, _ht, rfl⟩ := List.mem_map.mp h
    simp

/-- Claim C9, witness for the amended theorem at a concrete input. -/
theorem C9_witness : [jstr "A"] ≠ [] :=
  C9_result_paths_nonempty ⟨.arr [.s (jstr "A")], .absent, .absent⟩ (jstr "|")
    (by decide) [jstr "A"] (by decide)

/-- Claim C10: duplicates inside `hierarchicalSubject` are not deduplicated:
the coerced field `["A|B", "A|B"]` contains the same encoded path string twice
and the result contains the split path `["A","B"]` twice. -/
theorem C10_no_intra_field_dedup :
    parseExifFieldAsString (ExifVal.arr [.s (jstr "A|B"), .s (jstr "A|B")])
        = [jstr "A|B", jstr "A|B"]
    ∧ convertMetadataToHierarchy ⟨.arr [.s (jstr "A|B"), .s (jstr "A|B")], .absent, .absent⟩
        (jstr "|")
      = [[jstr "A", jstr "B"], [jstr "A", jstr "B"]] := by decide

/-- Claim C3, counterexample: the round trip can fail for a multi-character
separator even when no segment contains it. With `paths = [["xa","y"]]` and
separator `"aa"` (which occurs in neither `"xa"` nor `"y"`), serialization
joins to `"xaaay"`, whose leftmost `"aa"` occurrence straddles the boundary
between `"xa"` and the inserted separator, so re-normalization yields
`[["x","ay"], ["y"]]`, not the original paths. -/
theorem C3_counterexample :
    ([[jstr "xa", jstr "y"]] : List (List JStr)) ≠ []
    ∧ (jstr "aa") ≠ []
    ∧ (∀ p ∈ ([[jstr "xa", jstr "y"]] : List (List JStr)), p ≠ []
        ∧ ∀ seg ∈ p, seg ≠ [] ∧ occursIn (jstr "aa") seg = false)
    ∧ reparse [[jstr "xa", jstr "y"]] (jstr "aa") ≠ [[jstr "xa", jstr "y"]] := by
  decide

/-- Claim C3, amended: for every non-empty sequence of paths whose segments
are non-empty and do not contain the separator, and a single-character
separator (the spec's data model: a single configurable character), feeding
the serialized fields back through normalization with the same separator
reproduces exactly the original sequence of paths. -/
theorem C3_round_trip (paths : List (List JStr)) (c : Char)
    (h0 : paths ≠ []) (h1 : ∀ p ∈ paths, p ≠ [])
    (h2 : ∀ p ∈ paths, ∀ seg ∈ p, seg ≠ [] ∧ c ∉ seg) :
    reparse paths [c] = paths := by
  obtain ⟨ls, hmap, hmem⟩ := exists_leaves paths h1
  have hw : writeTagsPayload paths [c]
      = some ⟨paths.map (fun p => jjoin [c] p), paths.map List.getLast?,
              paths.map List.getLast?⟩ := by
    simp [writeTagsPayload, h0]
  unfold reparse
  rw [hw]
  show convertMetadataToHierarchy (payloadEntry ⟨paths.map (fun p => jjoin [c] p),
      paths.map List.getLast?, paths.map List.getLast?⟩) [c] = paths
  have hE : payloadEntry ⟨paths.map (fun p => jjoin [c] p),
        paths.map List.getLast?, paths.map List.getLast?⟩
      = ⟨.arr ((paths.map (fun p => jjoin [c] p)).map EScalar.s),
         .arr (ls.map EScalar.s), .arr (ls.map EScalar.s)⟩ := by
    show (⟨.arr ((paths.map (fun p => jjoin [c] p)).map EScalar.s),
        .arr ((paths.map List.getLast?).filterMap (fun o => o.map EScalar.s)),
        .arr ((paths.map List.getLast?).filterMap (fun o => o.map EScalar.s))⟩ : IMetadata)
        = _
    rw [hmap, filterMap_map_some]
  rw [hE]
  have hsp : splitPaths ⟨.arr ((paths.map (fun p => jjoin [c] p)).map EScalar.s),
      .arr (ls.map EScalar.s), .arr (ls.map EScalar.s)⟩ [c] = paths := by
    show (((paths.map (fun p => jjoin [c] p)).map EScalar.s).map EScalar.toStr).map
        (fun h => jsplit [c] h) = paths
    rw [map_toStr_map_s, List.map_map]
    refine (List.map_congr_left ?_).trans (List.map_id paths)
    intro p hp
    exact jsplit_jjoin_single c p (h1 p hp) (fun seg hs => (h2 p hp seg hs).2)
  have hfl : allPlainTags ⟨.arr ((paths.map (fun p => jjoin [c] p)).map EScalar.s),
      .arr (ls.map EScalar.s), .arr (ls.map EScalar.s)⟩ = jsSetDedup (ls ++ ls) := by
    show jsSetDedup ((ls.map EScalar.s).map EScalar.toStr
        ++ (ls.map EScalar.s).map EScalar.toStr) = _
    rw [map_toStr_map_s]
  show splitPaths _ [c]
      ++ ((allPlainTags _).filter
            (fun tag => (splitPaths _ [c]).all (fun h => h.getLast? != some tag))).map
          (fun t => [t]) = paths
  rw [hsp, hfl]
  have hnil : (jsSetDedup (ls ++ ls)).filter
      (fun tag => paths.all (fun h => h.getLast? != some tag)) = [] := by
    rw [List.filter_eq_nil_iff]
    intro tag htag
    have htag' : tag ∈ ls := by
      rcases List.mem_append.mp (mem_jsSetDedup.mp htag) with h | h
      · exact h
      · exact h
    obtain ⟨p, hp, hgl⟩ := hmem tag htag'
    intro hall
    rw [List.all_eq_true] at hall
    exact absurd hgl (by simpa using hall p hp)
  rw [hnil]
  simp

/-- Claim C3, witness for the amended round trip at the spec's example paths
with the default separator. -/
theorem C3_witness :
    reparse [[jstr "Body", jstr "Hand"], [jstr "Foot"]] ['|']
      = [[jstr "Body", jstr "Hand"], [jstr "Foot"]] :=
  C3_round_trip [[jstr "Body", jstr "Hand"], [jstr "Foot"]] '|' (by decide)
    (by decide) (by decide)

end Allusion
